import Mathlib

/-!
Verification of the Smart-Task-Planner scheduling core
(`backend/app/services.py`, class `SchedulingService`).

Numbers are modelled by `Rat` (Python floats; all claims are exact
identities).  `datetime` values are modelled as rational day-counts, so
`start + timedelta(days = x)` becomes `start + x`.

`compute_schedule` mutates its task list in place and either returns a
`(tasks, critical_path, total_duration)` triple or raises `ValueError`.
We model it as a function returning the final task-list state (reflecting
every in-place write performed before a raise) together with
`Except String (List Nat × Rat)`.
-/

namespace SmartTaskPlanner

/-- Model of `app.models.Task`.  The three estimates, the dependency list
and `is_complete` are caller-supplied input; the remaining fields are the
derived outputs of `compute_schedule`, `none` when never written. -/
structure Task where
  optimistic : Rat
  mostLikely : Rat
  pessimistic : Rat
  dependencies : List Int
  isComplete : Nat := 0
  expectedDuration : Option Rat := none
  earliestStart : Option Rat := none
  earliestFinish : Option Rat := none
  latestStart : Option Rat := none
  latestFinish : Option Rat := none
  slack : Option Rat := none
  isOnCriticalPath : Option Nat := none
  startDate : Option Rat := none
  endDate : Option Rat := none
deriving Repr, DecidableEq

/-- Convenience constructor: a fresh (unscheduled) task record. -/
def mkTask (o m p : Rat) (deps : List Int) : Task :=
  { optimistic := o, mostLikely := m, pessimistic := p, dependencies := deps }

/-- Step 1 of `compute_schedule`: the PERT formula
`(optimistic + 4 * most_likely + pessimistic) / 6.0`. -/
def pertExpected (t : Task) : Rat :=
  (t.optimistic + 4 * t.mostLikely + t.pessimistic) / 6

/-- A directed graph on `{0, …, N-1}` as its (deduplicated) edge list,
mirroring `networkx.DiGraph` built by successive `add_edge` calls. -/
abbrev Graph := List (Nat × Nat)

/-- Edge construction from a dependency table (`compute_schedule`, step 2):
`for i, task in enumerate(tasks): for dep_idx in task.dependencies:
if 0 <= dep_idx < len(tasks): G.add_edge(dep_idx, i)`.
Note that the only filter is the range check: there is no `dep_idx != i`
test, so a self-referential dependency produces a self-loop edge. -/
def edgesFrom (n : Nat) (ds : List (List Int)) : Graph :=
  ((ds.enum.map (fun p =>
      p.2.filterMap (fun d =>
        if 0 ≤ d ∧ d < (n : Int) then some (d.toNat, p.1) else none))).flatten).dedup

/-- The dependency graph of a task list. -/
def edgesOf (ts : List Task) : Graph :=
  edgesFrom ts.length (ts.map Task.dependencies)

/-- `list(G.predecessors(v))`, in edge-insertion order. -/
def predsOf (E : Graph) (v : Nat) : List Nat :=
  (E.filter (fun e => e.2 == v)).map Prod.fst

/-- `list(G.successors(u))`, in edge-insertion order. -/
def succsOf (E : Graph) (u : Nat) : List Nat :=
  (E.filter (fun e => e.1 == u)).map Prod.snd

/-- Expected duration of task `i` (node weight of the dependency graph). -/
def durOf (ts : List Task) : Nat → Rat := fun i =>
  ((ts.map pertExpected).get? i).getD 0

/-- A node of `rem` all of whose in-neighbours have already left `rem`
(the next node a Kahn-style topological sort may emit). -/
def pickReady (E : Graph) (rem : List Nat) : Option Nat :=
  rem.find? (fun v => (predsOf E v).all (fun u => !(rem.elem u)))

/-- Kahn-style topological sort, fuelled: repeatedly emit a ready node.
On a DAG all nodes get emitted; with a cycle the stuck nodes are dropped,
so the output being shorter than the node count detects the cycle
(this models `nx.topological_sort` / `nx.is_directed_acyclic_graph`). -/
def topoAux (E : Graph) : Nat → List Nat → List Nat
  | 0, _ => []
  | fuel + 1, rem =>
    match pickReady E rem with
    | none => []
    | some v => v :: topoAux E fuel (rem.erase v)

/-- Topological order of the `n`-node graph `E`. -/
def topoSort (E : Graph) (n : Nat) : List Nat :=
  topoAux E n (List.range n)

/-- `nx.is_directed_acyclic_graph` for the built graph. -/
def isDAG (E : Graph) (n : Nat) : Bool :=
  (topoSort E n).length == n

/-- `max` of a nonempty Python list (`0` supplied for the never-taken
empty case). -/
def listMaxR : List Rat → Rat
  | [] => 0
  | x :: xs => xs.foldl max x

/-- `min` of a nonempty Python list (`0` supplied for the never-taken
empty case). -/
def listMinR : List Rat → Rat
  | [] => 0
  | x :: xs => xs.foldl min x

/-- Pointwise update of a map, modelling `dict.__setitem__`. -/
def upd (f : Nat → Rat) (k : Nat) (v : Rat) : Nat → Rat :=
  fun j => if j = k then v else f j

/-- One iteration of the forward pass (step 5): the state is the pair
`(earliest_start, earliest_finish)`. -/
def fwdStep (E : Graph) (d : Nat → Rat) (st : (Nat → Rat) × (Nat → Rat)) (n : Nat) :
    (Nat → Rat) × (Nat → Rat) :=
  let ps := predsOf E n
  let es := if ps.isEmpty then 0 else listMaxR (ps.map st.2)
  (upd st.1 n es, upd st.2 n (es + d n))

/-- The whole forward pass over a topological order. -/
def fwdPass (E : Graph) (d : Nat → Rat) (order : List Nat) :
    (Nat → Rat) × (Nat → Rat) :=
  order.foldl (fwdStep E d) (fun _ => 0, fun _ => 0)

/-- One iteration of the backward pass (step 6): the state is the pair
`(latest_start, latest_finish)`. -/
def bwdStep (E : Graph) (d : Nat → Rat) (total : Rat)
    (st : (Nat → Rat) × (Nat → Rat)) (n : Nat) : (Nat → Rat) × (Nat → Rat) :=
  let ss := succsOf E n
  let lf := if ss.isEmpty then total else listMinR (ss.map st.1)
  (upd st.1 n (lf - d n), upd st.2 n lf)

/-- The whole backward pass, iterating `reversed(topo_order)`. -/
def bwdPass (E : Graph) (d : Nat → Rat) (total : Rat) (order : List Nat) :
    (Nat → Rat) × (Nat → Rat) :=
  order.reverse.foldl (bwdStep E d total) (fun _ => 0, fun _ => 0)

/-- `earliest_start` as computed by `compute_schedule`. -/
def esOf (ts : List Task) : Nat → Rat :=
  (fwdPass (edgesOf ts) (durOf ts) (topoSort (edgesOf ts) ts.length)).1

/-- `earliest_finish` as computed by `compute_schedule`. -/
def efOf (ts : List Task) : Nat → Rat :=
  (fwdPass (edgesOf ts) (durOf ts) (topoSort (edgesOf ts) ts.length)).2

/-- `total_duration = max(earliest_finish.values()) if earliest_finish
else 0.0` (the dict keys are the topological order). -/
def totalOf (ts : List Task) : Rat :=
  let o := topoSort (edgesOf ts) ts.length
  if o.isEmpty then 0 else listMaxR (o.map (efOf ts))

/-- `latest_start` as computed by `compute_schedule`. -/
def lsOf (ts : List Task) : Nat → Rat :=
  (bwdPass (edgesOf ts) (durOf ts) (totalOf ts) (topoSort (edgesOf ts) ts.length)).1

/-- `latest_finish` as computed by `compute_schedule`. -/
def lfOf (ts : List Task) : Nat → Rat :=
  (bwdPass (edgesOf ts) (durOf ts) (totalOf ts) (topoSort (edgesOf ts) ts.length)).2

/-- `slack[node] = latest_start[node] - earliest_start[node]` (step 7). -/
def slackOf (ts : List Task) (i : Nat) : Rat :=
  lsOf ts i - esOf ts i

/-- `critical_path_nodes`: nodes with `abs(slack[node]) < 0.01`, collected
in node-insertion order. -/
def criticalNodes (ts : List Task) : List Nat :=
  (List.range ts.length).filter (fun i => decide (|slackOf ts i| < 1 / 100))

/-- Lookup in the `dist` association list of `nx.dag_longest_path`
(`dist` stores `{v : (length, u)}` in insertion order). -/
def lookupDist (dist : List (Nat × Nat × Nat)) (v : Nat) : Option (Nat × Nat) :=
  (dist.find? (fun p => p.1 == v)).map Prod.snd

/-- One iteration of the `dist` loop of `nx.dag_longest_path`.
The call site passes `weight='weight'`, but the routine reads **edge**
attributes and `compute_schedule` never sets any, so every edge counts
`default_weight = 1`; the node weights set in step 2 are never consulted.
`max(us, key=...)` returns the first maximal element, modelled by a fold
that replaces the accumulator only on strict improvement. -/
def distStep (E : Graph) (dist : List (Nat × Nat × Nat)) (v : Nat) :
    List (Nat × Nat × Nat) :=
  let us := (predsOf E v).filterMap
    (fun u => (lookupDist dist u).map (fun q => (q.1 + 1, u)))
  let maxu := match us with
    | [] => (0, v)
    | x :: xs => xs.foldl (fun a b => if b.1 > a.1 then b else a) x
  dist ++ [(v, maxu)]

/-- The `dist` table built over the topological order. -/
def nxDist (E : Graph) (order : List Nat) : List (Nat × Nat × Nat) :=
  order.foldl (distStep E) []

/-- `max(dist, key=lambda x: dist[x][0])`: the first key attaining the
maximal path length, in insertion order. -/
def argmaxKey : List (Nat × Nat × Nat) → Option Nat
  | [] => none
  | x :: xs => some ((xs.foldl (fun a b => if b.2.1 > a.2.1 then b else a) x).1)

/-- The backtracking loop of `nx.dag_longest_path`: follow stored
predecessors until a node points to itself, then reverse. -/
def walkBack (dist : List (Nat × Nat × Nat)) : Nat → Nat → List Nat
  | 0, _ => []
  | fuel + 1, v =>
    match lookupDist dist v with
    | none => [v]
    | some q => if q.2 = v then [v] else walkBack dist fuel q.2 ++ [v]

/-- `nx.dag_longest_path(G, weight='weight')` as invoked in step 9. -/
def dagLongestPath (E : Graph) (order : List Nat) : List Nat :=
  if order.isEmpty then []
  else
    let dist := nxDist E order
    match argmaxKey dist with
    | none => []
    | some v => walkBack dist (dist.length + 1) v

/-- Step 1 alone (`task.expected_duration = …` for every task), the only
mutation performed before the cycle check. -/
def step1 (ts : List Task) : List Task :=
  ts.map (fun t => { t with expectedDuration := some (pertExpected t) })

/-- Step 8 for a single task: write every derived field.  `start_date`
and `end_date` are `start + timedelta(days=ES/EF)`. -/
def writeTask (ts : List Task) (s : Rat) (i : Nat) (t : Task) : Task :=
  { t with
    expectedDuration := some (pertExpected t)
    earliestStart := some (esOf ts i)
    earliestFinish := some (efOf ts i)
    latestStart := some (lsOf ts i)
    latestFinish := some (lfOf ts i)
    slack := some (slackOf ts i)
    isOnCriticalPath := some (if i ∈ criticalNodes ts then 1 else 0)
    startDate := some (s + esOf ts i)
    endDate := some (s + efOf ts i) }

/-- Step 8 over the whole list (`for i, task in enumerate(tasks)`). -/
def schedTasks (ts : List Task) (s : Rat) : List Task :=
  ts.enum.map (fun p => writeTask ts s p.1 p.2)

/-- The `ValueError` message raised on a cycle. -/
def cycleMsg : String :=
  "Task dependencies contain a cycle. Please check dependencies."

/-- `SchedulingService.compute_schedule(tasks, start_date)`.
Returns the final state of the (mutated-in-place) task list together
with either the `(critical_path, total_duration)` pair or the raised
error.  The empty input short-circuits before any mutation; the PERT
durations of step 1 are written before the cycle check, so they survive
a raise. -/
def computeSchedule (ts : List Task) (s : Rat) :
    List Task × Except String (List Nat × Rat) :=
  if ts.isEmpty then (ts, Except.ok ([], 0))
  else if isDAG (edgesOf ts) ts.length then
    (schedTasks ts s,
      Except.ok (dagLongestPath (edgesOf ts) (topoSort (edgesOf ts) ts.length),
        totalOf ts))
  else (step1 ts, Except.error cycleMsg)

/-- Model of `app.models.Plan` (the fields `generate_insights` reads). -/
structure Plan where
  tasks : List Task
  deadline : Option Rat
  totalDuration : Option Rat
deriving Repr

/-- Python's `round(x, 2)` on our exact rationals: round half to even at
the second decimal. -/
def round2 (x : Rat) : Rat :=
  let y := 100 * x
  let f : Int := ⌊y⌋
  let r : Int :=
    if y - (f : Rat) < 1 / 2 then f
    else if y - (f : Rat) > 1 / 2 then f + 1
    else if f % 2 = 0 then f else f + 1
  (r : Rat) / 100

/-- The deadline-analysis fragment of
`SchedulingService.generate_insights` (services.py lines 464-531),
returning `(buffer_days, deadline_status)`.  `now` models
`datetime.now()`; task lists with no tasks take the early
`"No schedule"` return, and a missing deadline yields `"No deadline"`
with `buffer_days = None`. -/
def generateInsightsDeadline (now : Rat) (plan : Plan) : Option Rat × String :=
  if plan.tasks.length = 0 then (none, "No schedule")
  else
    match plan.deadline with
    | none => (none, "No deadline")
    | some dl =>
      let startDates := plan.tasks.filterMap Task.startDate
      let baselineStart := if startDates.isEmpty then now else listMinR startDates
      let daysAvailable := dl - baselineStart
      let bufferDays := round2 (daysAvailable - plan.totalDuration.getD 0)
      if bufferDays ≥ 5 then (some bufferDays, "On track")
      else if bufferDays ≥ 0 then (some bufferDays, "At risk")
      else (some bufferDays, "Behind")

/-! ### Elementary lemmas about the list max / min reductions -/

theorem le_foldl_max (xs : List Rat) : ∀ x : Rat, x ≤ xs.foldl max x := by
  induction xs with
  | nil => intro x; exact le_refl x
  | cons a as ih =>
    intro x
    exact le_trans (le_max_left x a) (ih (max x a))

theorem mem_le_foldl_max {y : Rat} {xs : List Rat} (h : y ∈ xs) :
    ∀ x : Rat, y ≤ xs.foldl max x := by
  induction xs with
  | nil => cases h
  | cons a as ih =>
    intro x
    rcases List.mem_cons.mp h with rfl | hy
    · exact le_trans (le_max_right x y) (le_foldl_max as (max x y))
    · exact ih hy (max x a)

theorem foldl_max_mem (xs : List Rat) : ∀ x : Rat, xs.foldl max x ∈ x :: xs := by
  induction xs with
  | nil => intro x; exact List.mem_singleton.mpr rfl
  | cons a as ih =>
    intro x
    rcases List.mem_cons.mp (ih (max x a)) with h | h
    · rcases max_choice x a with hx | hx <;> rw [List.foldl_cons, h, hx]
      · exact List.mem_cons_self _ _
      · exact List.mem_cons_of_mem _ (List.mem_cons_self _ _)
    · exact List.mem_cons_of_mem _ (List.mem_cons_of_mem _ h)

theorem le_listMaxR {y : Rat} {l : List Rat} (h : y ∈ l) : y ≤ listMaxR l := by
  cases l with
  | nil => cases h
  | cons x xs =>
    rcases List.mem_cons.mp h with rfl | hy
    · exact le_foldl_max xs y
    · exact mem_le_foldl_max hy x

theorem listMaxR_mem {l : List Rat} (h : l ≠ []) : listMaxR l ∈ l := by
  cases l with
  | nil => exact absurd rfl h
  | cons x xs => exact foldl_max_mem xs x

theorem listMaxR_eq_of_mem_iff {l₁ l₂ : List Rat} (h₁ : l₁ ≠ [])
    (h : ∀ x, x ∈ l₁ ↔ x ∈ l₂) : listMaxR l₁ = listMaxR l₂ := by
  have h₂ : l₂ ≠ [] := by
    intro hnil
    rcases List.exists_mem_of_ne_nil l₁ h₁ with ⟨a, ha⟩
    rw [hnil] at h
    exact absurd ((h a).mp ha) (List.not_mem_nil a)
  exact le_antisymm
    (le_listMaxR ((h _).mp (listMaxR_mem h₁)))
    (le_listMaxR ((h _).mpr (listMaxR_mem h₂)))

theorem foldl_min_le (xs : List Rat) : ∀ x : Rat, xs.foldl min x ≤ x := by
  induction xs with
  | nil => intro x; exact le_refl x
  | cons a as ih =>
    intro x
    exact le_trans (ih (min x a)) (min_le_left x a)

theorem foldl_min_le_mem {y : Rat} {xs : List Rat} (h : y ∈ xs) :
    ∀ x : Rat, xs.foldl min x ≤ y := by
  induction xs with
  | nil => cases h
  | cons a as ih =>
    intro x
    rcases List.mem_cons.mp h with rfl | hy
    · exact le_trans (foldl_min_le as (min x y)) (min_le_right x y)
    · exact ih hy (min x a)

theorem foldl_min_mem (xs : List Rat) : ∀ x : Rat, xs.foldl min x ∈ x :: xs := by
  induction xs with
  | nil => intro x; exact List.mem_singleton.mpr rfl
  | cons a as ih =>
    intro x
    rcases List.mem_cons.mp (ih (min x a)) with h | h
    · rcases min_choice x a with hx | hx <;> rw [List.foldl_cons, h, hx]
      · exact List.mem_cons_self _ _
      · exact List.mem_cons_of_mem _ (List.mem_cons_self _ _)
    · exact List.mem_cons_of_mem _ (List.mem_cons_of_mem _ h)

theorem listMinR_le {y : Rat} {l : List Rat} (h : y ∈ l) : listMinR l ≤ y := by
  cases l with
  | nil => cases h
  | cons x xs =>
    rcases List.mem_cons.mp h with rfl | hy
    · exact foldl_min_le xs y
    · exact foldl_min_le_mem hy x

theorem listMinR_mem {l : List Rat} (h : l ≠ []) : listMinR l ∈ l := by
  cases l with
  | nil => exact absurd rfl h
  | cons x xs => exact foldl_min_mem xs x

theorem le_listMinR {c : Rat} {l : List Rat} (h : l ≠ [])
    (hall : ∀ x ∈ l, c ≤ x) : c ≤ listMinR l :=
  hall _ (listMinR_mem h)

theorem listMaxR_le {c : Rat} {l : List Rat} (h : l ≠ [])
    (hall : ∀ x ∈ l, x ≤ c) : listMaxR l ≤ c :=
  hall _ (listMaxR_mem h)

/-! ### Map updates and graph membership -/

theorem upd_self (f : Nat → Rat) (k : Nat) (v : Rat) : upd f k v k = v := by
  simp [upd]

theorem upd_ne (f : Nat → Rat) {k j : Nat} (v : Rat) (h : j ≠ k) :
    upd f k v j = f j := by
  simp [upd, h]

theorem mem_predsOf {E : Graph} {v p : Nat} : p ∈ predsOf E v ↔ (p, v) ∈ E := by
  unfold predsOf
  constructor
  · intro h
    rcases List.mem_map.mp h with ⟨e, he, hfst⟩
    have h2 := List.mem_filter.mp he
    have : e.2 = v := by simpa using h2.2
    have : e = (p, v) := by
      cases e; simp_all
    rw [this] at h2
    exact h2.1
  · intro h
    exact List.mem_map.mpr ⟨(p, v), List.mem_filter.mpr ⟨h, by simp⟩, rfl⟩

theorem mem_succsOf {E : Graph} {u s : Nat} : s ∈ succsOf E u ↔ (u, s) ∈ E := by
  unfold succsOf
  constructor
  · intro h
    rcases List.mem_map.mp h with ⟨e, he, hsnd⟩
    have h2 := List.mem_filter.mp he
    have : e.1 = u := by simpa using h2.2
    have : e = (u, s) := by
      cases e; simp_all
    rw [this] at h2
    exact h2.1
  · intro h
    exact List.mem_map.mpr ⟨(u, s), List.mem_filter.mpr ⟨h, by simp⟩, rfl⟩

theorem mem_edgesFrom_lt {n : Nat} {ds : List (List Int)} {e : Nat × Nat}
    (h : e ∈ edgesFrom n ds) : e.1 < n ∧ e.2 < ds.length := by
  unfold edgesFrom at h
  have h1 := List.mem_dedup.mp h
  rcases List.mem_flatten.mp h1 with ⟨inner, hinner, hmem⟩
  rcases List.mem_map.mp hinner with ⟨p, hp, rfl⟩
  rcases List.mem_filterMap.mp hmem with ⟨d, _, hd⟩
  by_cases hcond : 0 ≤ d ∧ d < (n : Int)
  · rw [if_pos hcond] at hd
    cases hd
    constructor
    · have := hcond.2
      omega
    · have hp' : ds[p.1]? = some p.2 := List.mem_enum_iff_getElem?.mp hp
      have : p.1 < ds.length := by
        rcases List.getElem?_eq_some.mp hp' with ⟨hlt, _⟩
        exact hlt
      simpa using this
  · rw [if_neg hcond] at hd
    cases hd

theorem edgesOf_lt {ts : List Task} {e : Nat × Nat} (h : e ∈ edgesOf ts) :
    e.1 < ts.length ∧ e.2 < ts.length := by
  have := mem_edgesFrom_lt h
  simpa using this

/-! ### Properties of the topological sort -/

theorem pickReady_mem {E : Graph} {rem : List Nat} {v : Nat}
    (h : pickReady E rem = some v) : v ∈ rem :=
  List.mem_of_find?_eq_some h

theorem pickReady_preds {E : Graph} {rem : List Nat} {v : Nat}
    (h : pickReady E rem = some v) : ∀ p ∈ predsOf E v, p ∉ rem := by
  intro p hp hmem
  have hb := List.find?_some h
  have hall := List.all_eq_true.mp hb p hp
  have : rem.elem p = true := List.elem_eq_true_of_mem hmem
  rw [this] at hall
  exact absurd hall (by simp)

theorem topoAux_subset {E : Graph} :
    ∀ (fuel : Nat) (rem : List Nat), ∀ v ∈ topoAux E fuel rem, v ∈ rem := by
  intro fuel
  induction fuel with
  | zero => intro rem v hv; cases hv
  | succ n ih =>
    intro rem v hv
    unfold topoAux at hv
    cases hpick : pickReady E rem with
    | none => rw [hpick] at hv; cases hv
    | some w =>
      rw [hpick] at hv
      rcases List.mem_cons.mp hv with rfl | hv'
      · exact pickReady_mem hpick
      · exact List.erase_subset _ _ (ih (rem.erase w) v hv')

theorem topoAux_nodup {E : Graph} :
    ∀ (fuel : Nat) (rem : List Nat), rem.Nodup → (topoAux E fuel rem).Nodup := by
  intro fuel
  induction fuel with
  | zero => intro rem _; exact List.nodup_nil
  | succ n ih =>
    intro rem hrem
    unfold topoAux
    cases hpick : pickReady E rem with
    | none => exact List.nodup_nil
    | some w =>
      refine List.nodup_cons.mpr ⟨?_, ih (rem.erase w) (hrem.erase w)⟩
      intro hmem
      exact hrem.not_mem_erase (topoAux_subset n (rem.erase w) w hmem)

theorem topoAux_no_self_loop {E : Graph} :
    ∀ (fuel : Nat) (rem : List Nat), ∀ v ∈ topoAux E fuel rem, (v, v) ∉ E := by
  intro fuel
  induction fuel with
  | zero => intro rem v hv; cases hv
  | succ n ih =>
    intro rem v hv
    unfold topoAux at hv
    cases hpick : pickReady E rem with
    | none => rw [hpick] at hv; cases hv
    | some w =>
      rw [hpick] at hv
      rcases List.mem_cons.mp hv with rfl | hv'
      · intro hE
        exact pickReady_preds hpick v (mem_predsOf.mpr hE) (pickReady_mem hpick)
      · exact ih (rem.erase w) v hv'

theorem topoAux_pairwise {E : Graph} :
    ∀ (fuel : Nat) (rem : List Nat),
      (topoAux E fuel rem).Pairwise (fun a b => (b, a) ∉ E) := by
  intro fuel
  induction fuel with
  | zero => intro rem; exact List.Pairwise.nil
  | succ n ih =>
    intro rem
    unfold topoAux
    cases hpick : pickReady E rem with
    | none => exact List.Pairwise.nil
    | some w =>
      refine List.pairwise_cons.mpr ⟨?_, ih (rem.erase w)⟩
      intro b hb hE
      have hbrem : b ∈ rem := List.erase_subset _ _ (topoAux_subset n _ b hb)
      exact pickReady_preds hpick b (mem_predsOf.mpr hE) hbrem

/-- Any total order on the nodes of `E` compatible with the edges; the
notion of "topological order" quantified over in the spec. -/
def ValidTopo (E : Graph) (n : Nat) (order : List Nat) : Prop :=
  order.Nodup ∧ (∀ v, v ∈ order ↔ v < n) ∧
  (∀ v ∈ order, (v, v) ∉ E) ∧ order.Pairwise (fun a b => (b, a) ∉ E)

theorem isDAG_topoSort_complete {E : Graph} {n : Nat}
    (h : isDAG E n = true) : ∀ v, v ∈ topoSort E n ↔ v < n := by
  have hlen : (topoSort E n).length = n := by
    have := of_decide_eq_true (by simpa [isDAG] using h)
    simpa using this
  have hsub : topoSort E n ⊆ List.range n := by
    intro v hv
    exact List.mem_range.mpr (List.mem_range.mp
      (topoAux_subset n (List.range n) v hv))
  have hnd : (topoSort E n).Nodup :=
    topoAux_nodup n (List.range n) (List.nodup_range n)
  have hperm : List.Perm (topoSort E n) (List.range n) :=
    (List.subperm_of_subset hnd hsub).perm_of_length_le
      (by rw [hlen, List.length_range])
  intro v
  rw [hperm.mem_iff, List.mem_range]

theorem isDAG_validTopo {E : Graph} {n : Nat} (h : isDAG E n = true) :
    ValidTopo E n (topoSort E n) :=
  ⟨topoAux_nodup n (List.range n) (List.nodup_range n),
   isDAG_topoSort_complete h,
   fun v hv => topoAux_no_self_loop n (List.range n) v hv,
   topoAux_pairwise n (List.range n)⟩

/-- Self-loops make the sort stall: a node carrying a self-loop is never
emitted. -/
theorem self_loop_not_isDAG {E : Graph} {n : Nat} {i : Nat}
    (hi : i < n) (hE : (i, i) ∈ E) : isDAG E n = false := by
  by_contra hne
  have htrue : isDAG E n = true := by
    cases hval : isDAG E n
    · exact absurd hval hne
    · rfl
  have hmem : i ∈ topoSort E n := (isDAG_topoSort_complete htrue i).mpr hi
  exact topoAux_no_self_loop n (List.range n) i hmem hE

/-! ### Closure of an order under predecessors / successors -/

/-- Every node's in-neighbours have been emitted strictly earlier: no
predecessor occurs at the node's own position or later. -/
def PredsClosed (E : Graph) : List Nat → Prop
  | [] => True
  | v :: rest => (∀ p ∈ predsOf E v, p ∉ v :: rest) ∧ PredsClosed E rest

/-- Dual closure used for the reversed order in the backward pass. -/
def SuccsClosed (E : Graph) : List Nat → Prop
  | [] => True
  | v :: rest => (∀ s ∈ succsOf E v, s ∉ v :: rest) ∧ SuccsClosed E rest

theorem predsClosed_of_pairwise {E : Graph} :
    ∀ {order : List Nat}, (∀ v ∈ order, (v, v) ∉ E) →
      order.Pairwise (fun a b => (b, a) ∉ E) → PredsClosed E order := by
  intro order
  induction order with
  | nil => intro _ _; trivial
  | cons a rest ih =>
    intro hself hpw
    rcases List.pairwise_cons.mp hpw with ⟨hhead, htail⟩
    refine ⟨?_, ih (fun v hv => hself v (List.mem_cons_of_mem _ hv)) htail⟩
    intro p hp hmem
    have hE : (p, a) ∈ E := mem_predsOf.mp hp
    rcases List.mem_cons.mp hmem with rfl | hrest
    · exact hself p (List.mem_cons_self _ _) hE
    · exact hhead p hrest hE

theorem succsClosed_of_pairwise {E : Graph} :
    ∀ {order : List Nat}, (∀ v ∈ order, (v, v) ∉ E) →
      order.Pairwise (fun a b => (a, b) ∉ E) → SuccsClosed E order := by
  intro order
  induction order with
  | nil => intro _ _; trivial
  | cons a rest ih =>
    intro hself hpw
    rcases List.pairwise_cons.mp hpw with ⟨hhead, htail⟩
    refine ⟨?_, ih (fun v hv => hself v (List.mem_cons_of_mem _ hv)) htail⟩
    intro s hs hmem
    have hE : (a, s) ∈ E := mem_succsOf.mp hs
    rcases List.mem_cons.mp hmem with rfl | hrest
    · exact hself s (List.mem_cons_self _ _) hE
    · exact hhead s hrest hE

theorem ValidTopo.predsClosed {E : Graph} {n : Nat} {order : List Nat}
    (h : ValidTopo E n order) : PredsClosed E order :=
  predsClosed_of_pairwise h.2.2.1 h.2.2.2

theorem ValidTopo.succsClosed_reverse {E : Graph} {n : Nat} {order : List Nat}
    (h : ValidTopo E n order) : SuccsClosed E order.reverse := by
  refine succsClosed_of_pairwise ?_ ?_
  · intro v hv
    exact h.2.2.1 v (List.mem_reverse.mp hv)
  · exact List.pairwise_reverse.mpr h.2.2.2

/-! ### The forward pass satisfies the CPM recurrences -/

theorem fwdFold_frame (E : Graph) (d : Nat → Rat) :
    ∀ (l : List Nat) (st : (Nat → Rat) × (Nat → Rat)) (v : Nat), v ∉ l →
      (l.foldl (fwdStep E d) st).1 v = st.1 v ∧
      (l.foldl (fwdStep E d) st).2 v = st.2 v := by
  intro l
  induction l with
  | nil => intro st v _; exact ⟨rfl, rfl⟩
  | cons n rest ih =>
    intro st v hv
    have hvn : v ≠ n := fun h => hv (h ▸ List.mem_cons_self _ _)
    have hvr : v ∉ rest := fun h => hv (List.mem_cons_of_mem _ h)
    rw [List.foldl_cons]
    rcases ih (fwdStep E d st n) v hvr with ⟨h1, h2⟩
    refine ⟨?_, ?_⟩
    · rw [h1]; exact upd_ne _ _ hvn
    · rw [h2]; exact upd_ne _ _ hvn

theorem fwdFold_spec (E : Graph) (d : Nat → Rat) :
    ∀ (order : List Nat) (st : (Nat → Rat) × (Nat → Rat)),
      order.Nodup → PredsClosed E order → ∀ v ∈ order,
      (order.foldl (fwdStep E d) st).1 v =
        (if (predsOf E v).isEmpty then 0
         else listMaxR ((predsOf E v).map (order.foldl (fwdStep E d) st).2)) ∧
      (order.foldl (fwdStep E d) st).2 v =
        (order.foldl (fwdStep E d) st).1 v + d v := by
  intro order
  induction order with
  | nil => intro st _ _ v hv; cases hv
  | cons n rest ih =>
    intro st hnd hpc v hv
    rcases List.nodup_cons.mp hnd with ⟨hnr, hndr⟩
    rcases hpc with ⟨hhead, htail⟩
    rcases List.mem_cons.mp hv with rfl | hvr
    · -- v = n : the head is assigned by the first step and never touched again
      rw [List.foldl_cons]
      rcases fwdFold_frame E d rest (fwdStep E d st v) v hnr with ⟨h1, h2⟩
      have hstep1 : (fwdStep E d st v).1 v =
          (if (predsOf E v).isEmpty then 0
           else listMaxR ((predsOf E v).map st.2)) := by
        simp [fwdStep, upd_self]
      have hstep2 : (fwdStep E d st v).2 v =
          (if (predsOf E v).isEmpty then 0
           else listMaxR ((predsOf E v).map st.2)) + d v := by
        simp [fwdStep, upd_self]
      have hmap : (predsOf E v).map ((rest.foldl (fwdStep E d) (fwdStep E d st v)).2) =
          (predsOf E v).map st.2 := by
        apply List.map_congr_left
        intro p hp
        have hpn : p ∉ v :: rest := hhead p hp
        have hpv : p ≠ v := fun h => hpn (h ▸ List.mem_cons_self _ _)
        have hpr : p ∉ rest := fun h => hpn (List.mem_cons_of_mem _ h)
        rcases fwdFold_frame E d rest (fwdStep E d st v) p hpr with ⟨_, hf2⟩
        rw [hf2]
        simp [fwdStep, upd_ne _ _ hpv]
      constructor
      · rw [h1, hstep1, hmap]
      · rw [h2, hstep2, h1, hstep1]
    · rw [List.foldl_cons]
      exact ih (fwdStep E d st n) hndr htail v hvr

/-! ### The backward pass satisfies the CPM recurrences -/

theorem bwdFold_frame (E : Graph) (d : Nat → Rat) (total : Rat) :
    ∀ (l : List Nat) (st : (Nat → Rat) × (Nat → Rat)) (v : Nat), v ∉ l →
      (l.foldl (bwdStep E d total) st).1 v = st.1 v ∧
      (l.foldl (bwdStep E d total) st).2 v = st.2 v := by
  intro l
  induction l with
  | nil => intro st v _; exact ⟨rfl, rfl⟩
  | cons n rest ih =>
    intro st v hv
    have hvn : v ≠ n := fun h => hv (h ▸ List.mem_cons_self _ _)
    have hvr : v ∉ rest := fun h => hv (List.mem_cons_of_mem _ h)
    rw [List.foldl_cons]
    rcases ih (bwdStep E d total st n) v hvr with ⟨h1, h2⟩
    refine ⟨?_, ?_⟩
    · rw [h1]; exact upd_ne _ _ hvn
    · rw [h2]; exact upd_ne _ _ hvn

theorem bwdFold_spec (E : Graph) (d : Nat → Rat) (total : Rat) :
    ∀ (rev : List Nat) (st : (Nat → Rat) × (Nat → Rat)),
      rev.Nodup → SuccsClosed E rev → ∀ v ∈ rev,
      (rev.foldl (bwdStep E d total) st).2 v =
        (if (succsOf E v).isEmpty then total
         else listMinR ((succsOf E v).map (rev.foldl (bwdStep E d total) st).1)) ∧
      (rev.foldl (bwdStep E d total) st).1 v =
        (rev.foldl (bwdStep E d total) st).2 v - d v := by
  intro rev
  induction rev with
  | nil => intro st _ _ v hv; cases hv
  | cons n rest ih =>
    intro st hnd hsc v hv
    rcases List.nodup_cons.mp hnd with ⟨hnr, hndr⟩
    rcases hsc with ⟨hhead, htail⟩
    rcases List.mem_cons.mp hv with rfl | hvr
    · rw [List.foldl_cons]
      rcases bwdFold_frame E d total rest (bwdStep E d total st v) v hnr with ⟨h1, h2⟩
      have hstep2 : (bwdStep E d total st v).2 v =
          (if (succsOf E v).isEmpty then total
           else listMinR ((succsOf E v).map st.1)) := by
        simp [bwdStep, upd_self]
      have hstep1 : (bwdStep E d total st v).1 v =
          (if (succsOf E v).isEmpty then total
           else listMinR ((succsOf E v).map st.1)) - d v := by
        simp [bwdStep, upd_self]
      have hmap : (succsOf E v).map ((rest.foldl (bwdStep E d total) (bwdStep E d total st v)).1) =
          (succsOf E v).map st.1 := by
        apply List.map_congr_left
        intro s hs
        have hsn : s ∉ v :: rest := hhead s hs
        have hsv : s ≠ v := fun h => hsn (h ▸ List.mem_cons_self _ _)
        have hsr : s ∉ rest := fun h => hsn (List.mem_cons_of_mem _ h)
        rcases bwdFold_frame E d total rest (bwdStep E d total st v) s hsr with ⟨hf1, _⟩
        rw [hf1]
        simp [bwdStep, upd_ne _ _ hsv]
      constructor
      · rw [h2, hstep2, hmap]
      · rw [h1, hstep1, h2, hstep2]
    · rw [List.foldl_cons]
      exact ih (bwdStep E d total st n) hndr htail v hvr

/-! ### The canonical schedule values satisfy the CPM equations -/

theorem es_ef_spec (ts : List Task) (hd : isDAG (edgesOf ts) ts.length = true) :
    ∀ i, i < ts.length →
      esOf ts i =
        (if (predsOf (edgesOf ts) i).isEmpty then 0
         else listMaxR ((predsOf (edgesOf ts) i).map (efOf ts))) ∧
      efOf ts i = esOf ts i + durOf ts i := by
  intro i hi
  have hvt := isDAG_validTopo hd
  have hmem : i ∈ topoSort (edgesOf ts) ts.length := (hvt.2.1 i).mpr hi
  have h := fwdFold_spec (edgesOf ts) (durOf ts)
    (topoSort (edgesOf ts) ts.length) (fun _ => 0, fun _ => 0)
    hvt.1 hvt.predsClosed i hmem
  exact h

theorem ls_lf_spec (ts : List Task) (hd : isDAG (edgesOf ts) ts.length = true) :
    ∀ i, i < ts.length →
      lfOf ts i =
        (if (succsOf (edgesOf ts) i).isEmpty then totalOf ts
         else listMinR ((succsOf (edgesOf ts) i).map (lsOf ts))) ∧
      lsOf ts i = lfOf ts i - durOf ts i := by
  intro i hi
  have hvt := isDAG_validTopo hd
  have hmem : i ∈ (topoSort (edgesOf ts) ts.length).reverse :=
    List.mem_reverse.mpr ((hvt.2.1 i).mpr hi)
  have h := bwdFold_spec (edgesOf ts) (durOf ts) (totalOf ts)
    (topoSort (edgesOf ts) ts.length).reverse (fun _ => 0, fun _ => 0)
    (List.nodup_reverse.mpr hvt.1) hvt.succsClosed_reverse i hmem
  exact h

theorem totalOf_spec (ts : List Task) (hd : isDAG (edgesOf ts) ts.length = true) :
    totalOf ts =
      if ts.length = 0 then 0
      else listMaxR ((List.range ts.length).map (efOf ts)) := by
  have hvt := isDAG_validTopo hd
  by_cases hn : ts.length = 0
  · have : topoSort (edgesOf ts) ts.length = [] := by
      have := List.eq_nil_of_length_eq_zero (l := topoSort (edgesOf ts) ts.length) ?_
      · exact this
      · have hlen : (topoSort (edgesOf ts) ts.length).length = ts.length := by
          have := of_decide_eq_true (by simpa [isDAG] using hd)
          simpa using this
        rw [hlen, hn]
    rw [totalOf, this, if_pos hn]
    simp
  · have hne : topoSort (edgesOf ts) ts.length ≠ [] := by
      intro hnil
      have h0 : (0 : Nat) < ts.length := Nat.pos_of_ne_zero hn
      have := (hvt.2.1 0).mpr h0
      rw [hnil] at this
      cases this
    rw [totalOf, if_neg (by simpa [List.isEmpty_iff] using hne), if_neg hn]
    apply listMaxR_eq_of_mem_iff
    · intro hnil
      exact hne (List.map_eq_nil_iff.mp hnil)
    · intro x
      constructor
      · intro hx
        rcases List.mem_map.mp hx with ⟨i, hi, rfl⟩
        exact List.mem_map.mpr ⟨i, List.mem_range.mpr ((hvt.2.1 i).mp hi), rfl⟩
      · intro hx
        rcases List.mem_map.mp hx with ⟨i, hi, rfl⟩
        exact List.mem_map.mpr ⟨i, (hvt.2.1 i).mpr (List.mem_range.mp hi), rfl⟩

theorem efOf_le_totalOf (ts : List Task) (hd : isDAG (edgesOf ts) ts.length = true) :
    ∀ i, i < ts.length → efOf ts i ≤ totalOf ts := by
  intro i hi
  have hvt := isDAG_validTopo hd
  have hmem : i ∈ topoSort (edgesOf ts) ts.length := (hvt.2.1 i).mpr hi
  have hne : topoSort (edgesOf ts) ts.length ≠ [] := by
    intro hnil; rw [hnil] at hmem; cases hmem
  rw [totalOf, if_neg (by simpa [List.isEmpty_iff] using hne)]
  exact le_listMaxR (List.mem_map.mpr ⟨i, hmem, rfl⟩)

/-! ### Uniqueness of the backward recurrence (order independence) -/

theorem bwdRec_unique_aux (E : Graph) (d : Nat → Rat) (total : Rat)
    (ls₁ lf₁ ls₂ lf₂ : Nat → Rat) :
    ∀ (rev : List Nat), SuccsClosed E rev →
      (∀ v ∈ rev,
        lf₁ v = (if (succsOf E v).isEmpty then total
                 else listMinR ((succsOf E v).map ls₁)) ∧
        ls₁ v = lf₁ v - d v) →
      (∀ v ∈ rev,
        lf₂ v = (if (succsOf E v).isEmpty then total
                 else listMinR ((succsOf E v).map ls₂)) ∧
        ls₂ v = lf₂ v - d v) →
      (∀ v ∈ rev, ∀ s ∈ succsOf E v, s ∉ rev → lf₁ s = lf₂ s ∧ ls₁ s = ls₂ s) →
      ∀ v ∈ rev, lf₁ v = lf₂ v ∧ ls₁ v = ls₂ v := by
  intro rev
  induction rev with
  | nil => intro _ _ _ _ v hv; cases hv
  | cons a rest ih =>
    intro hsc h₁ h₂ hout
    rcases hsc with ⟨hhead, htail⟩
    have ha : lf₁ a = lf₂ a ∧ ls₁ a = ls₂ a := by
      rcases h₁ a (List.mem_cons_self _ _) with ⟨hlf₁, hls₁⟩
      rcases h₂ a (List.mem_cons_self _ _) with ⟨hlf₂, hls₂⟩
      have hmap : (succsOf E a).map ls₁ = (succsOf E a).map ls₂ := by
        apply List.map_congr_left
        intro s hs
        exact (hout a (List.mem_cons_self _ _) s hs (hhead s hs)).2
      have hlf : lf₁ a = lf₂ a := by rw [hlf₁, hlf₂, hmap]
      exact ⟨hlf, by rw [hls₁, hls₂, hlf]⟩
    intro v hv
    rcases List.mem_cons.mp hv with rfl | hvr
    · exact ha
    · refine ih htail
        (fun u hu => h₁ u (List.mem_cons_of_mem _ hu))
        (fun u hu => h₂ u (List.mem_cons_of_mem _ hu)) ?_ v hvr
      intro u hu s hs hsrest
      by_cases hsa : s = a
      · exact hsa ▸ ha
      · refine hout u (List.mem_cons_of_mem _ hu) s hs ?_
        intro hmem
        rcases List.mem_cons.mp hmem with h | h
        · exact hsa h
        · exact hsrest h

/-- The backward pass run over any valid topological order produces the
same `latest_start` / `latest_finish` values as the one
`compute_schedule` actually uses. -/
theorem bwd_order_independent (ts : List Task)
    (hd : isDAG (edgesOf ts) ts.length = true) :
    ∀ order, ValidTopo (edgesOf ts) ts.length order → ∀ i, i < ts.length →
      (bwdPass (edgesOf ts) (durOf ts) (totalOf ts) order).1 i = lsOf ts i ∧
      (bwdPass (edgesOf ts) (durOf ts) (totalOf ts) order).2 i = lfOf ts i := by
  intro order hvo i hi
  have hvt := isDAG_validTopo hd
  have hrevmem : ∀ v : Nat, v ∈ (topoSort (edgesOf ts) ts.length).reverse ↔ v < ts.length := by
    intro v; rw [List.mem_reverse]; exact hvt.2.1 v
  have h := bwdRec_unique_aux (edgesOf ts) (durOf ts) (totalOf ts)
    (bwdPass (edgesOf ts) (durOf ts) (totalOf ts) order).1
    (bwdPass (edgesOf ts) (durOf ts) (totalOf ts) order).2
    (lsOf ts) (lfOf ts)
    (topoSort (edgesOf ts) ts.length).reverse
    hvt.succsClosed_reverse
    ?_ ?_ ?_ i ((hrevmem i).mpr hi)
  · exact ⟨h.2, h.1⟩
  · intro v hv
    have hvlt : v < ts.length := (hrevmem v).mp hv
    have hvmem : v ∈ order.reverse := List.mem_reverse.mpr ((hvo.2.1 v).mpr hvlt)
    exact bwdFold_spec (edgesOf ts) (durOf ts) (totalOf ts) order.reverse
      (fun _ => 0, fun _ => 0) (List.nodup_reverse.mpr hvo.1) hvo.succsClosed_reverse v hvmem
  · intro v hv
    exact ls_lf_spec ts hd v ((hrevmem v).mp hv)
  · intro v hv s hs hsrev
    exfalso
    exact hsrev ((hrevmem s).mpr (edgesOf_lt (mem_succsOf.mp hs)).2)

/-! ### Numeric bounds guaranteed by the two passes -/

theorem schedule_bounds_aux (E : Graph) (d : Nat → Rat) (total : Rat)
    (es ef ls lf : Nat → Rat) (S : List Nat)
    (hdpos : ∀ v ∈ S, 0 ≤ d v)
    (heftot : ∀ v ∈ S, ef v ≤ total)
    (hfwd : ∀ v ∈ S,
      es v = (if (predsOf E v).isEmpty then 0
              else listMaxR ((predsOf E v).map ef)) ∧ ef v = es v + d v)
    (hbwd : ∀ v ∈ S,
      lf v = (if (succsOf E v).isEmpty then total
              else listMinR ((succsOf E v).map ls)) ∧ ls v = lf v - d v)
    (hsucc : ∀ v ∈ S, ∀ s ∈ succsOf E v, s ∈ S) :
    ∀ (rev : List Nat), (∀ v ∈ rev, v ∈ S) → SuccsClosed E rev →
      (∀ v ∈ rev, ∀ s ∈ succsOf E v, s ∉ rev → es s ≤ ls s ∧ lf s ≤ total) →
      ∀ v ∈ rev, es v ≤ ls v ∧ lf v ≤ total := by
  intro rev
  induction rev with
  | nil => intro _ _ _ v hv; cases hv
  | cons a rest ih =>
    intro hsub hsc hout
    rcases hsc with ⟨hhead, htail⟩
    have haS : a ∈ S := hsub a (List.mem_cons_self _ _)
    have ha : es a ≤ ls a ∧ lf a ≤ total := by
      rcases hfwd a haS with ⟨hesa, hefa⟩
      rcases hbwd a haS with ⟨hlfa, hlsa⟩
      by_cases hemp : (succsOf E a).isEmpty
      · -- sink: LF = total, and EF ≤ total gives ES ≤ LS
        rw [if_pos hemp] at hlfa
        constructor
        · have := heftot a haS
          rw [hefa] at this
          rw [hlsa, hlfa]
          linarith
        · rw [hlfa]
      · rw [if_neg hemp] at hlfa
        have hne : succsOf E a ≠ [] := by
          intro h; rw [h] at hemp; exact hemp rfl
        have hP : ∀ s ∈ succsOf E a, es s ≤ ls s ∧ lf s ≤ total := by
          intro s hs
          exact hout a (List.mem_cons_self _ _) s hs (hhead s hs)
        have hef_le_lf : ef a ≤ lf a := by
          rw [hlfa]
          apply le_listMinR (by
            intro h
            exact hne (List.map_eq_nil_iff.mp h))
          intro x hx
          rcases List.mem_map.mp hx with ⟨s, hs, rfl⟩
          have hsS : s ∈ S := hsucc a haS s hs
          rcases hfwd s hsS with ⟨hess, _⟩
          have hpa : a ∈ predsOf E s := mem_predsOf.mpr (mem_succsOf.mp hs)
          have hpne : ¬ (predsOf E s).isEmpty := by
            intro h
            rw [List.isEmpty_iff] at h
            rw [h] at hpa
            cases hpa
          have hef_le_es : ef a ≤ es s := by
            rw [hess, if_neg hpne]
            exact le_listMaxR (List.mem_map.mpr ⟨a, hpa, rfl⟩)
          exact le_trans hef_le_es (hP s hs).1
        constructor
        · rw [hlsa, hefa] at *
          linarith
        · rcases List.exists_mem_of_ne_nil _ hne with ⟨s₀, hs₀⟩
          have h1 : lf a ≤ ls s₀ := by
            rw [hlfa]
            exact listMinR_le (List.mem_map.mpr ⟨s₀, hs₀, rfl⟩)
          have hs₀S : s₀ ∈ S := hsucc a haS s₀ hs₀
          rcases hbwd s₀ hs₀S with ⟨_, hlss₀⟩
          have h2 : ls s₀ ≤ lf s₀ := by
            rw [hlss₀]
            have := hdpos s₀ hs₀S
            linarith
          exact le_trans h1 (le_trans h2 (hP s₀ hs₀).2)
    intro v hv
    rcases List.mem_cons.mp hv with rfl | hvr
    · exact ha
    · refine ih (fun u hu => hsub u (List.mem_cons_of_mem _ hu)) htail ?_ v hvr
      intro u hu s hs hsrest
      by_cases hsa : s = a
      · exact hsa ▸ ha
      · refine hout u (List.mem_cons_of_mem _ hu) s hs ?_
        intro hmem
        rcases List.mem_cons.mp hmem with h | h
        · exact hsa h
        · exact hsrest h

theorem durOf_nonneg {ts : List Task}
    (hpos : ∀ t ∈ ts, 0 < t.optimistic ∧ 0 < t.mostLikely ∧ 0 < t.pessimistic) :
    ∀ v, 0 ≤ durOf ts v := by
  intro v
  unfold durOf
  cases hget : (ts.map pertExpected).get? v with
  | none => simp
  | some x =>
    rcases List.get?_eq_some.mp hget with ⟨hlt, hx⟩
    rw [List.get_map] at hx
    have hmem : ts.get ⟨v, by simpa using hlt⟩ ∈ ts := List.get_mem ts _ _
    rcases hpos _ hmem with ⟨h1, h2, h3⟩
    have : 0 < pertExpected (ts.get ⟨v, by simpa using hlt⟩) := by
      unfold pertExpected
      have h6 : (0 : Rat) < 6 := by norm_num
      apply div_pos _ h6
      linarith
    simp only [Option.getD_some]
    rw [← hx]
    exact le_of_lt this

theorem schedule_bounds (ts : List Task)
    (hd : isDAG (edgesOf ts) ts.length = true)
    (hpos : ∀ t ∈ ts, 0 < t.optimistic ∧ 0 < t.mostLikely ∧ 0 < t.pessimistic) :
    ∀ i, i < ts.length →
      esOf ts i ≤ lsOf ts i ∧ lfOf ts i ≤ totalOf ts := by
  intro i hi
  have hvt := isDAG_validTopo hd
  have hrevmem : ∀ v : Nat,
      v ∈ (topoSort (edgesOf ts) ts.length).reverse ↔ v < ts.length := by
    intro v; rw [List.mem_reverse]; exact hvt.2.1 v
  refine schedule_bounds_aux (edgesOf ts) (durOf ts) (totalOf ts)
    (esOf ts) (efOf ts) (lsOf ts) (lfOf ts)
    (topoSort (edgesOf ts) ts.length).reverse
    (fun v _ => durOf_nonneg hpos v)
    (fun v hv => efOf_le_totalOf ts hd v ((hrevmem v).mp hv))
    (fun v hv => es_ef_spec ts hd v ((hrevmem v).mp hv))
    (fun v hv => ls_lf_spec ts hd v ((hrevmem v).mp hv))
    ?_ (topoSort (edgesOf ts) ts.length).reverse (fun v hv => hv)
    hvt.succsClosed_reverse ?_ i ((hrevmem i).mpr hi)
  · intro v _ s hs
    exact (hrevmem s).mpr (edgesOf_lt (mem_succsOf.mp hs)).2
  · intro v _ s hs hsrev
    exact absurd ((hrevmem s).mpr (edgesOf_lt (mem_succsOf.mp hs)).2) hsrev

/-! ### Shape of the scheduled task list -/

theorem enumFrom_map_snd_comp {α β : Type _} (f : α → β) :
    ∀ (n : Nat) (l : List α), (l.enumFrom n).map (fun p => f p.2) = l.map f := by
  intro n l
  induction l generalizing n with
  | nil => rfl
  | cons a as ih => simpa [List.enumFrom] using ih (n + 1)

theorem enum_map_snd_comp {α β : Type _} (f : α → β) (l : List α) :
    l.enum.map (fun p => f p.2) = l.map f :=
  enumFrom_map_snd_comp f 0 l

theorem schedTasks_get? (ts : List Task) (s : Rat) (i : Nat) :
    (schedTasks ts s).get? i = (ts.get? i).map (writeTask ts s i) := by
  unfold schedTasks
  rw [List.get?_map, List.get?_enum, Option.map_map]
  rfl

theorem schedTasks_length (ts : List Task) (s : Rat) :
    (schedTasks ts s).length = ts.length := by
  unfold schedTasks
  rw [List.length_map, List.enum_length]

theorem step1_length (ts : List Task) : (step1 ts).length = ts.length := by
  unfold step1; rw [List.length_map]

/-! ### The schedule only reads the caller-supplied task fields -/

theorem writeTask_dependencies (ts : List Task) (s : Rat) (i : Nat) (t : Task) :
    (writeTask ts s i t).dependencies = t.dependencies := rfl

theorem writeTask_pert (ts : List Task) (s : Rat) (i : Nat) (t : Task) :
    pertExpected (writeTask ts s i t) = pertExpected t := rfl

theorem step1_map_dependencies (ts : List Task) :
    (step1 ts).map Task.dependencies = ts.map Task.dependencies := by
  unfold step1
  rw [List.map_map]
  exact List.map_congr_left (fun t _ => rfl)

theorem step1_map_pert (ts : List Task) :
    (step1 ts).map pertExpected = ts.map pertExpected := by
  unfold step1
  rw [List.map_map]
  exact List.map_congr_left (fun t _ => rfl)

theorem schedTasks_map_dependencies (ts : List Task) (s : Rat) :
    (schedTasks ts s).map Task.dependencies = ts.map Task.dependencies := by
  unfold schedTasks
  rw [List.map_map]
  exact enum_map_snd_comp Task.dependencies ts

theorem schedTasks_map_pert (ts : List Task) (s : Rat) :
    (schedTasks ts s).map pertExpected = ts.map pertExpected := by
  unfold schedTasks
  rw [List.map_map]
  exact enum_map_snd_comp pertExpected ts

theorem edgesOf_congr {ts' ts : List Task}
    (h : ts'.map Task.dependencies = ts.map Task.dependencies) :
    edgesOf ts' = edgesOf ts := by
  have hlen : ts'.length = ts.length := by
    have := congrArg List.length h
    simpa using this
  unfold edgesOf
  rw [hlen, h]

theorem durOf_congr {ts' ts : List Task}
    (h : ts'.map pertExpected = ts.map pertExpected) :
    durOf ts' = durOf ts := by
  funext i
  unfold durOf
  rw [h]

/-- All derived schedule quantities coincide on task lists with the same
graph, length and expected durations. -/
theorem derived_congr' {ts' ts : List Task}
    (hE : edgesOf ts' = edgesOf ts) (hlen : ts'.length = ts.length)
    (hpert : ts'.map pertExpected = ts.map pertExpected) :
    esOf ts' = esOf ts ∧ efOf ts' = efOf ts ∧ totalOf ts' = totalOf ts ∧
    lsOf ts' = lsOf ts ∧ lfOf ts' = lfOf ts ∧
    slackOf ts' = slackOf ts ∧ criticalNodes ts' = criticalNodes ts := by
  have hD := durOf_congr hpert
  have hes : esOf ts' = esOf ts := by
    unfold esOf; rw [hE, hD, hlen]
  have hef : efOf ts' = efOf ts := by
    unfold efOf; rw [hE, hD, hlen]
  have htot : totalOf ts' = totalOf ts := by
    unfold totalOf; rw [hE, hlen, hef]
  have hls : lsOf ts' = lsOf ts := by
    unfold lsOf; rw [hE, hD, hlen, htot]
  have hlf : lfOf ts' = lfOf ts := by
    unfold lfOf; rw [hE, hD, hlen, htot]
  have hsl : slackOf ts' = slackOf ts := by
    funext i; unfold slackOf; rw [hls, hes]
  refine ⟨hes, hef, htot, hls, hlf, hsl, ?_⟩
  unfold criticalNodes
  rw [hlen, hsl]

/-- All derived schedule quantities coincide on core-equal task lists. -/
theorem derived_congr {ts' ts : List Task}
    (hdep : ts'.map Task.dependencies = ts.map Task.dependencies)
    (hpert : ts'.map pertExpected = ts.map pertExpected) :
    esOf ts' = esOf ts ∧ efOf ts' = efOf ts ∧ totalOf ts' = totalOf ts ∧
    lsOf ts' = lsOf ts ∧ lfOf ts' = lfOf ts ∧
    slackOf ts' = slackOf ts ∧ criticalNodes ts' = criticalNodes ts := by
  have hlen : ts'.length = ts.length := by
    have := congrArg List.length hdep
    simpa using this
  exact derived_congr' (edgesOf_congr hdep) hlen hpert

theorem writeTask_congr {ts' ts : List Task} (s : Rat)
    (hdep : ts'.map Task.dependencies = ts.map Task.dependencies)
    (hpert : ts'.map pertExpected = ts.map pertExpected) :
    writeTask ts' s = writeTask ts s := by
  rcases derived_congr hdep hpert with ⟨hes, hef, _, hls, hlf, hsl, hcn⟩
  funext i t
  unfold writeTask
  rw [hes, hef, hls, hlf, hsl, hcn]

theorem writeTask_writeTask (ts : List Task) (s : Rat) (i : Nat) (t : Task) :
    writeTask ts s i (writeTask ts s i t) = writeTask ts s i t := by
  cases t
  rfl

theorem schedTasks_idem (ts : List Task) (s : Rat) :
    schedTasks (schedTasks ts s) s = schedTasks ts s := by
  have hW : writeTask (schedTasks ts s) s = writeTask ts s :=
    writeTask_congr s (schedTasks_map_dependencies ts s) (schedTasks_map_pert ts s)
  apply List.ext
  intro i
  rw [schedTasks_get? (schedTasks ts s) s i, schedTasks_get? ts s i, hW,
    Option.map_map]
  cases ts.get? i with
  | none => rfl
  | some t =>
    show some (writeTask ts s i (writeTask ts s i t)) = some (writeTask ts s i t)
    rw [writeTask_writeTask]

/-! ### Case analysis of `compute_schedule` -/

theorem computeSchedule_empty (s : Rat) :
    computeSchedule [] s = ([], Except.ok ([], 0)) := rfl

theorem computeSchedule_ok {ts : List Task} (s : Rat) (hne : ts ≠ [])
    (hd : isDAG (edgesOf ts) ts.length = true) :
    computeSchedule ts s =
      (schedTasks ts s,
        Except.ok (dagLongestPath (edgesOf ts) (topoSort (edgesOf ts) ts.length),
          totalOf ts)) := by
  unfold computeSchedule
  rw [if_neg (by simpa [List.isEmpty_iff] using hne), if_pos hd]

theorem isDAG_of_nil : isDAG (edgesOf ([] : List Task)) 0 = true := rfl

theorem computeSchedule_err {ts : List Task} (s : Rat)
    (hd : isDAG (edgesOf ts) ts.length = false) :
    computeSchedule ts s = (step1 ts, Except.error cycleMsg) := by
  have hne : ts ≠ [] := by
    intro h
    subst h
    have : isDAG (edgesOf ([] : List Task)) ([] : List Task).length = true := rfl
    rw [this] at hd
    cases hd
  unfold computeSchedule
  rw [if_neg (by simpa [List.isEmpty_iff] using hne), if_neg (by rw [hd]; simp)]

theorem step1_idem (ts : List Task) : step1 (step1 ts) = step1 ts := by
  unfold step1
  rw [List.map_map]
  apply List.map_congr_left
  intro t _
  cases t
  rfl

theorem step1_get? (ts : List Task) (i : Nat) :
    (step1 ts).get? i =
      (ts.get? i).map (fun t => { t with expectedDuration := some (pertExpected t) }) := by
  unfold step1
  rw [List.get?_map]

/-! ### Claim theorems -/

theorem computeSchedule_map_expected (ts : List Task) (s : Rat) :
    (computeSchedule ts s).1.map Task.expectedDuration =
      ts.map (fun t => some (pertExpected t)) := by
  by_cases hemp : ts = []
  · subst hemp
    rfl
  · cases hd : isDAG (edgesOf ts) ts.length with
    | true =>
      rw [computeSchedule_ok s hemp hd]
      show (schedTasks ts s).map Task.expectedDuration = _
      unfold schedTasks
      rw [List.map_map]
      have : (Task.expectedDuration ∘ fun p : Nat × Task => writeTask ts s p.1 p.2) =
          (fun p : Nat × Task => some (pertExpected p.2)) := by
        funext p
        rfl
      rw [this]
      exact enum_map_snd_comp (fun t => some (pertExpected t)) ts
    | false =>
      rw [computeSchedule_err s hd]
      show (step1 ts).map Task.expectedDuration = _
      unfold step1
      rw [List.map_map]
      exact List.map_congr_left (fun t _ => rfl)

/-- Claim C7: `compute_schedule` always sets `expected_duration` to the
PERT value `(optimistic + 4 * most_likely + pessimistic) / 6`, recomputed
from the three estimates regardless of whatever `expected_duration` the
input record carried; the estimates `(2, 5, 8)` yield exactly `5`. -/
theorem claim_C7_pert_formula :
    (∀ (ts : List Task) (s : Rat),
      (computeSchedule ts s).1.map Task.expectedDuration =
        ts.map (fun t =>
          some ((t.optimistic + 4 * t.mostLikely + t.pessimistic) / 6))) ∧
    (computeSchedule [mkTask 2 5 8 []] 0).1.map Task.expectedDuration = [some 5] := by
  constructor
  · intro ts s
    exact computeSchedule_map_expected ts s
  · rw [computeSchedule_map_expected]
    norm_num [mkTask, pertExpected]

/-- Claim C9: re-running `compute_schedule` on the task list as left by a
previous run (with the same start date) reproduces exactly the same task
states, critical path and total duration. -/
theorem claim_C9_rerun_identical (ts : List Task) (s : Rat) :
    computeSchedule ((computeSchedule ts s).1) s = computeSchedule ts s := by
  by_cases hemp : ts = []
  · subst hemp
    rfl
  · cases hd : isDAG (edgesOf ts) ts.length with
    | true =>
      rw [computeSchedule_ok s hemp hd]
      have hdep := schedTasks_map_dependencies ts s
      have hpert := schedTasks_map_pert ts s
      have hE : edgesOf (schedTasks ts s) = edgesOf ts := edgesOf_congr hdep
      have hlen : (schedTasks ts s).length = ts.length := schedTasks_length ts s
      have hne' : schedTasks ts s ≠ [] := by
        intro h
        apply hemp
        have : ts.length = 0 := by rw [← hlen, h]; rfl
        exact List.length_eq_zero.mp this
      have hd' : isDAG (edgesOf (schedTasks ts s)) (schedTasks ts s).length = true := by
        rw [hE, hlen]; exact hd
      rw [computeSchedule_ok s hne' hd']
      rcases derived_congr hdep hpert with ⟨_, _, htot, _, _, _, _⟩
      rw [schedTasks_idem, hE, hlen, htot]
    | false =>
      rw [computeSchedule_err s hd]
      have hdep := step1_map_dependencies ts
      have hE : edgesOf (step1 ts) = edgesOf ts := edgesOf_congr hdep
      have hlen : (step1 ts).length = ts.length := step1_length ts
      have hd' : isDAG (edgesOf (step1 ts)) (step1 ts).length = false := by
        rw [hE, hlen]; exact hd
      rw [computeSchedule_err s hd', step1_idem]

/-- A source-to-sink walk of the dependency DAG: consecutive elements are
joined by edges and the nodes exist. -/
def IsPathIn (E : Graph) (n : Nat) : List Nat → Prop
  | [] => False
  | [v] => v < n
  | v :: w :: rest => v < n ∧ (v, w) ∈ E ∧ IsPathIn E n (w :: rest)

/-- Total expected duration along a node sequence. -/
def pathWeight (ts : List Task) (p : List Nat) : Rat :=
  (p.map (durOf ts)).sum

/-- A heavy independent task next to a light two-task chain: the input
exposing the longest-path weighting defect. -/
def cpTasks : List Task :=
  [mkTask 100 100 100 [], mkTask 1 1 1 [], mkTask 1 1 1 [1]]

/-- Claim C1 (refuted by the code): on `cpTasks` the returned
`critical_path` is `[1, 2]` — the path with the most edges — although
the single-node path `[0]` carries a strictly larger total
`expected_duration` (100 versus 2).  `nx.dag_longest_path(G,
weight='weight')` reads edge attributes, which `compute_schedule` never
sets, so every edge counts 1 and the node weights are ignored. -/
theorem claim_C1_hop_count_path :
    (∃ total, (computeSchedule cpTasks 0).2 = Except.ok ([1, 2], total)) ∧
    IsPathIn (edgesOf cpTasks) cpTasks.length [0] ∧
    pathWeight cpTasks [1, 2] < pathWeight cpTasks [0] := by
  refine ⟨⟨totalOf cpTasks, ?_⟩, by show (0 : Nat) < cpTasks.length; decide, ?_⟩
  · rw [computeSchedule_ok 0 (by simp [cpTasks]) (by decide)]
    rw [show dagLongestPath (edgesOf cpTasks)
        (topoSort (edgesOf cpTasks) cpTasks.length) = [1, 2] from by decide]
  · show durOf cpTasks 1 + (durOf cpTasks 2 + 0) < durOf cpTasks 0 + 0
    norm_num [durOf, cpTasks, mkTask, pertExpected]

/-- A single task that depends on itself. -/
def selfRefTasks : List Task := [mkTask 1 1 1 [0]]

/-- Claim C2 (refuted by the code): a self-referential dependency is not
silently dropped — `compute_schedule` has no `dep != i` filter, the
self-loop makes the graph cyclic, and the cycle error is raised. -/
theorem claim_C2_counterexample :
    (computeSchedule selfRefTasks 0).2 = Except.error cycleMsg := by
  rw [computeSchedule_err 0 (by decide)]

/-- Two mutually dependent tasks. -/
def cycTasks : List Task := [mkTask 1 1 1 [1], mkTask 1 1 1 [0]]

/-- Claim C3 (refuted by the code): on a cyclic input the error is
raised, but `expected_duration` has already been written into every task
(step 1 precedes the cycle check), so the tasks are not left with all
derived fields unwritten. -/
theorem claim_C3_counterexample :
    (computeSchedule cycTasks 0).2 = Except.error cycleMsg ∧
    cycTasks.map Task.expectedDuration = [none, none] ∧
    (computeSchedule cycTasks 0).1.map Task.expectedDuration = [some 1, some 1] := by
  refine ⟨?_, by decide, ?_⟩
  · rw [computeSchedule_err 0 (by decide)]
  · rw [computeSchedule_map_expected]
    norm_num [cycTasks, mkTask, pertExpected]

/-- Claim C3 (amended): on any cyclic dependency graph
`compute_schedule` raises the cycle error and the final task state is
the input with `expected_duration` (and nothing else) freshly written. -/
theorem claim_C3_amended (ts : List Task) (s : Rat)
    (hcyc : isDAG (edgesOf ts) ts.length = false) :
    (computeSchedule ts s).2 = Except.error cycleMsg ∧
    (computeSchedule ts s).1 =
      ts.map (fun t => { t with expectedDuration := some (pertExpected t) }) := by
  rw [computeSchedule_err s hcyc]
  exact ⟨rfl, rfl⟩

theorem claim_C3_amended_witness :
    (computeSchedule cycTasks 0).2 = Except.error cycleMsg ∧
    (computeSchedule cycTasks 0).1 =
      cycTasks.map (fun t => { t with expectedDuration := some (pertExpected t) }) :=
  claim_C3_amended cycTasks 0 (by decide)

/-! ### Out-of-range dependencies are dropped; self-references are fatal -/

/-- The same task list with the out-of-range dependency entries removed
upfront (the in-range filter of the edge loop applied to the data). -/
def dropOutOfRange (ts : List Task) : List Task :=
  ts.map (fun t =>
    { t with dependencies :=
        t.dependencies.filter (fun d => decide (0 ≤ d ∧ d < (ts.length : Int))) })

theorem enumFrom_map_pair {α β : Type _} (h : α → β) :
    ∀ (n : Nat) (l : List α),
      (l.map h).enumFrom n = (l.enumFrom n).map (fun p => (p.1, h p.2)) := by
  intro n l
  induction l generalizing n with
  | nil => rfl
  | cons a as ih => simpa [List.enumFrom] using ih (n + 1)

theorem edgesFrom_filter (n : Nat) (ds : List (List Int)) :
    edgesFrom n
      (ds.map (fun l => l.filter (fun d => decide (0 ≤ d ∧ d < (n : Int))))) =
    edgesFrom n ds := by
  unfold edgesFrom
  rw [List.enum, enumFrom_map_pair, List.map_map]
  congr 1
  congr 1
  apply List.map_congr_left
  intro p _
  show ((p.2.filter (fun d => decide (0 ≤ d ∧ d < (n : Int)))).filterMap fun d =>
      if 0 ≤ d ∧ d < (n : Int) then some (d.toNat, p.1) else none) = _
  rw [List.filterMap_filter]
  apply List.filterMap_congr
  intro d _
  by_cases hd : 0 ≤ d ∧ d < (n : Int)
  · simp [hd]
  · simp [hd]

theorem edgesOf_dropOutOfRange (ts : List Task) :
    edgesOf (dropOutOfRange ts) = edgesOf ts := by
  unfold edgesOf
  have hlen : (dropOutOfRange ts).length = ts.length := by
    unfold dropOutOfRange; rw [List.length_map]
  rw [hlen]
  have hdeps : (dropOutOfRange ts).map Task.dependencies =
      (ts.map Task.dependencies).map
        (fun l => l.filter (fun d => decide (0 ≤ d ∧ d < (ts.length : Int)))) := by
    unfold dropOutOfRange
    rw [List.map_map, List.map_map]
    exact List.map_congr_left (fun t _ => rfl)
  rw [hdeps, edgesFrom_filter]

theorem dropOutOfRange_map_pert (ts : List Task) :
    (dropOutOfRange ts).map pertExpected = ts.map pertExpected := by
  unfold dropOutOfRange
  rw [List.map_map]
  exact List.map_congr_left (fun t _ => rfl)

/-- The nine derived output fields of a task record. -/
def derivedFields (t : Task) : List (Option Rat) × Option Nat :=
  ([t.expectedDuration, t.earliestStart, t.earliestFinish, t.latestStart,
    t.latestFinish, t.slack, t.startDate, t.endDate], t.isOnCriticalPath)

theorem dropOutOfRange_map_derived (ts : List Task) :
    (dropOutOfRange ts).map derivedFields = ts.map derivedFields := by
  unfold dropOutOfRange
  rw [List.map_map]
  exact List.map_congr_left (fun t _ => rfl)

theorem computeSchedule_snd_congr {ts' ts : List Task} (s : Rat)
    (hE : edgesOf ts' = edgesOf ts) (hlen : ts'.length = ts.length)
    (hpert : ts'.map pertExpected = ts.map pertExpected) :
    (computeSchedule ts' s).2 = (computeSchedule ts s).2 := by
  by_cases hemp : ts = []
  · subst hemp
    have : ts' = [] := List.length_eq_zero.mp (by rw [hlen]; rfl)
    rw [this]
  · have hne' : ts' ≠ [] := by
      intro h
      exact hemp (List.length_eq_zero.mp (by rw [← hlen, h]; rfl))
    cases hd : isDAG (edgesOf ts) ts.length with
    | true =>
      rw [computeSchedule_ok s hemp hd,
        computeSchedule_ok s hne' (by rw [hE, hlen]; exact hd)]
      rcases derived_congr' hE hlen hpert with ⟨_, _, htot, _, _, _, _⟩
      rw [hE, hlen, htot]
    | false =>
      rw [computeSchedule_err s hd,
        computeSchedule_err s (by rw [hE, hlen]; exact hd)]

theorem map_pair_congr {α β γ δ : Type _} {l' l : List α} {f : α → β} {g : α → γ}
    (hf : l'.map f = l.map f) (hg : l'.map g = l.map g) (h : β → γ → δ) :
    l'.map (fun t => h (f t) (g t)) = l.map (fun t => h (f t) (g t)) := by
  induction l' generalizing l with
  | nil =>
    have : l = [] := by simpa using hf.symm
    rw [this]
  | cons a as ih =>
    cases l with
    | nil => cases hf
    | cons b bs =>
      rw [List.map_cons, List.map_cons] at hf hg
      rcases List.cons.injEq _ _ _ _ ▸ hf with ⟨hf1, hf2⟩
      rcases List.cons.injEq _ _ _ _ ▸ hg with ⟨hg1, hg2⟩
      rw [List.map_cons, List.map_cons, hf1, hg1, ih hf2 hg2]

theorem enumFrom_map_congr {α β γ : Type _} {f : α → γ} {l' l : List α}
    (hf : l'.map f = l.map f) (h : Nat → γ → β) :
    ∀ n, (l'.enumFrom n).map (fun p => h p.1 (f p.2)) =
      (l.enumFrom n).map (fun p => h p.1 (f p.2)) := by
  induction l' generalizing l with
  | nil =>
    intro n
    have : l = [] := by simpa using hf.symm
    rw [this]
  | cons a as ih =>
    intro n
    cases l with
    | nil => cases hf
    | cons b bs =>
      rw [List.map_cons, List.map_cons] at hf
      rcases List.cons.injEq _ _ _ _ ▸ hf with ⟨hf1, hf2⟩
      show h n (f a) :: _ = h n (f b) :: _
      rw [hf1, ih hf2 (n + 1)]

/-- The derived projection of a fully written task, as a function of the
index and the task's expected duration only. -/
def derivedWrite (ts : List Task) (s : Rat) (i : Nat) (x : Rat) :
    List (Option Rat) × Option Nat :=
  ([some x, some (esOf ts i), some (efOf ts i), some (lsOf ts i),
    some (lfOf ts i), some (slackOf ts i), some (s + esOf ts i),
    some (s + efOf ts i)],
   some (if i ∈ criticalNodes ts then 1 else 0))

theorem derivedFields_writeTask (ts : List Task) (s : Rat) (i : Nat) (t : Task) :
    derivedFields (writeTask ts s i t) = derivedWrite ts s i (pertExpected t) := rfl

theorem derivedWrite_congr {ts' ts : List Task} (s : Rat)
    (hE : edgesOf ts' = edgesOf ts) (hlen : ts'.length = ts.length)
    (hpert : ts'.map pertExpected = ts.map pertExpected) :
    derivedWrite ts' s = derivedWrite ts s := by
  rcases derived_congr' hE hlen hpert with ⟨hes, hef, _, hls, hlf, hsl, hcn⟩
  funext i x
  unfold derivedWrite
  rw [hes, hef, hls, hlf, hsl, hcn]

theorem computeSchedule_fst_derived_congr {ts' ts : List Task} (s : Rat)
    (hE : edgesOf ts' = edgesOf ts) (hlen : ts'.length = ts.length)
    (hpert : ts'.map pertExpected = ts.map pertExpected)
    (hder : ts'.map derivedFields = ts.map derivedFields) :
    (computeSchedule ts' s).1.map derivedFields =
      (computeSchedule ts s).1.map derivedFields := by
  by_cases hemp : ts = []
  · subst hemp
    have : ts' = [] := List.length_eq_zero.mp (by rw [hlen]; rfl)
    rw [this]
  · have hne' : ts' ≠ [] := by
      intro h
      exact hemp (List.length_eq_zero.mp (by rw [← hlen, h]; rfl))
    cases hd : isDAG (edgesOf ts) ts.length with
    | true =>
      rw [computeSchedule_ok s hemp hd,
        computeSchedule_ok s hne' (by rw [hE, hlen]; exact hd)]
      show (schedTasks ts' s).map derivedFields = (schedTasks ts s).map derivedFields
      unfold schedTasks
      rw [List.map_map, List.map_map]
      have hw' : (derivedFields ∘ fun p : Nat × Task => writeTask ts' s p.1 p.2) =
          (fun p : Nat × Task => derivedWrite ts' s p.1 (pertExpected p.2)) := by
        funext p; exact derivedFields_writeTask ts' s p.1 p.2
      have hw : (derivedFields ∘ fun p : Nat × Task => writeTask ts s p.1 p.2) =
          (fun p : Nat × Task => derivedWrite ts s p.1 (pertExpected p.2)) := by
        funext p; exact derivedFields_writeTask ts s p.1 p.2
      rw [hw', hw, derivedWrite_congr s hE hlen hpert]
      exact enumFrom_map_congr hpert (derivedWrite ts s) 0
    | false =>
      rw [computeSchedule_err s hd,
        computeSchedule_err s (by rw [hE, hlen]; exact hd)]
      show (step1 ts').map derivedFields = (step1 ts).map derivedFields
      unfold step1
      rw [List.map_map, List.map_map]
      have hφ : (derivedFields ∘ fun t : Task =>
          { t with expectedDuration := some (pertExpected t) }) =
          (fun t : Task =>
            (some (pertExpected t) :: (derivedFields t).1.tail, (derivedFields t).2)) := by
        funext t; rfl
      rw [hφ]
      exact map_pair_congr hpert hder
        (fun x df => (some x :: df.1.tail, df.2))

theorem mem_edgesOf_of_dep {ts : List Task} {i : Nat} (h : i < ts.length)
    {d : Int} (hd : d ∈ (ts.get ⟨i, h⟩).dependencies)
    (h0 : 0 ≤ d) (hlt : d < (ts.length : Int)) :
    (d.toNat, i) ∈ edgesOf ts := by
  unfold edgesOf edgesFrom
  rw [List.mem_dedup]
  apply List.mem_flatten.mpr
  refine ⟨((ts.map Task.dependencies).get ⟨i, by simpa using h⟩).filterMap
    (fun d => if 0 ≤ d ∧ d < (ts.length : Int) then some (d.toNat, i) else none), ?_, ?_⟩
  · apply List.mem_map.mpr
    refine ⟨(i, (ts.map Task.dependencies).get ⟨i, by simpa using h⟩), ?_, rfl⟩
    apply List.mem_enum_iff_getElem?.mpr
    simp
    exact ⟨ts.get ⟨i, h⟩, by rw [List.getElem?_eq_getElem h]; simp [List.get_eq_getElem], rfl⟩
  · apply List.mem_filterMap.mpr
    refine ⟨d, ?_, by rw [if_pos ⟨h0, hlt⟩]⟩
    rw [List.get_map]
    exact hd

/-- Claim C2 (amended): out-of-range dependency entries are silently
dropped — removing them from the input changes neither the outcome nor
any derived field — but a self-referential entry is **not** dropped: it
adds a self-loop edge and the cyclic-dependency error is raised. -/
theorem claim_C2_amended (ts : List Task) (s : Rat) :
    ((computeSchedule (dropOutOfRange ts) s).2 = (computeSchedule ts s).2 ∧
     (computeSchedule (dropOutOfRange ts) s).1.map derivedFields =
       (computeSchedule ts s).1.map derivedFields) ∧
    (∀ i (h : i < ts.length), (i : Int) ∈ (ts.get ⟨i, h⟩).dependencies →
      (computeSchedule ts s).2 = Except.error cycleMsg) := by
  have hE := edgesOf_dropOutOfRange ts
  have hlen : (dropOutOfRange ts).length = ts.length := by
    unfold dropOutOfRange; rw [List.length_map]
  have hpert := dropOutOfRange_map_pert ts
  refine ⟨⟨computeSchedule_snd_congr s hE hlen hpert,
    computeSchedule_fst_derived_congr s hE hlen hpert
      (dropOutOfRange_map_derived ts)⟩, ?_⟩
  intro i h hmem
  have hedge : ((i : Int).toNat, i) ∈ edgesOf ts :=
    mem_edgesOf_of_dep h hmem (Int.ofNat_nonneg i) (by exact_mod_cast h)
  have hself : (i, i) ∈ edgesOf ts := by
    simpa using hedge
  have hfalse : isDAG (edgesOf ts) ts.length = false :=
    self_loop_not_isDAG h hself
  rw [computeSchedule_err s hfalse]

/-- Two tasks where the first carries one out-of-range and one negative
dependency entry. -/
def oorTasks : List Task := [mkTask 1 1 1 [5, -1], mkTask 1 1 1 [0]]

theorem claim_C2_amended_witness :
    ((computeSchedule (dropOutOfRange oorTasks) 0).2 =
       (computeSchedule oorTasks 0).2) ∧
    ((0 : Nat) < selfRefTasks.length ∧
     (computeSchedule selfRefTasks 0).2 = Except.error cycleMsg) :=
  ⟨(claim_C2_amended oorTasks 0).1.1,
   ⟨by decide, (claim_C2_amended selfRefTasks 0).2 0 (by decide) (by decide)⟩⟩

/-- Claim C4: under an acyclic graph the forward pass satisfies the CPM
recurrences — `ES` is `0` at sources and the max of predecessor `EF`
otherwise, `EF = ES + expected`, those values are written into the
output tasks, and the returned total duration is the maximum `EF`
(`0` for an empty list). -/
theorem claim_C4_forward_pass (ts : List Task) (s : Rat)
    (hd : isDAG (edgesOf ts) ts.length = true) :
    (∃ cp, (computeSchedule ts s).2 =
      Except.ok (cp, if ts.length = 0 then 0
                     else listMaxR ((List.range ts.length).map (efOf ts)))) ∧
    ∀ i, i < ts.length →
      esOf ts i = (if (predsOf (edgesOf ts) i).isEmpty then 0
                   else listMaxR ((predsOf (edgesOf ts) i).map (efOf ts))) ∧
      efOf ts i = esOf ts i + durOf ts i ∧
      ∃ t, (computeSchedule ts s).1.get? i = some t ∧
        t.earliestStart = some (esOf ts i) ∧
        t.earliestFinish = some (efOf ts i) := by
  constructor
  · by_cases hemp : ts = []
    · refine ⟨[], ?_⟩
      subst hemp
      simp [computeSchedule_empty]
    · refine ⟨dagLongestPath (edgesOf ts) (topoSort (edgesOf ts) ts.length), ?_⟩
      rw [computeSchedule_ok s hemp hd, totalOf_spec ts hd]
  · intro i hi
    have hne : ts ≠ [] := by
      intro h; rw [h] at hi; cases hi
    rcases es_ef_spec ts hd i hi with ⟨h1, h2⟩
    refine ⟨h1, h2, ?_⟩
    rw [computeSchedule_ok s hne hd]
    refine ⟨writeTask ts s i (ts.get ⟨i, hi⟩), ?_, rfl, rfl⟩
    show (schedTasks ts s).get? i = _
    rw [schedTasks_get?, List.get?_eq_get hi]
    rfl

/-- A three-task chain used to witness the scheduling theorems. -/
def chainTasks : List Task := [mkTask 1 2 3 [], mkTask 2 3 4 [0], mkTask 1 2 3 [1]]

theorem claim_C4_forward_pass_witness :
    isDAG (edgesOf chainTasks) chainTasks.length = true ∧
    (1 : Nat) < chainTasks.length ∧
    (esOf chainTasks 1 =
      (if (predsOf (edgesOf chainTasks) 1).isEmpty then 0
       else listMaxR ((predsOf (edgesOf chainTasks) 1).map (efOf chainTasks))) ∧
     efOf chainTasks 1 = esOf chainTasks 1 + durOf chainTasks 1 ∧
     ∃ t, (computeSchedule chainTasks 0).1.get? 1 = some t ∧
       t.earliestStart = some (esOf chainTasks 1) ∧
       t.earliestFinish = some (efOf chainTasks 1)) :=
  ⟨by decide, by decide,
   (claim_C4_forward_pass chainTasks 0 (by decide)).2 1 (by decide)⟩

/-- Claim C5: under an acyclic graph the backward pass satisfies the CPM
recurrences — `LF` is the total duration at sinks and the min of
successor `LS` otherwise, `LS = LF - expected` — the values are written
into the output tasks, and running the pass over any valid topological
order yields the same values. -/
theorem claim_C5_backward_pass (ts : List Task) (s : Rat)
    (hd : isDAG (edgesOf ts) ts.length = true) :
    ∀ i, i < ts.length →
      (lfOf ts i = (if (succsOf (edgesOf ts) i).isEmpty then totalOf ts
                    else listMinR ((succsOf (edgesOf ts) i).map (lsOf ts))) ∧
       lsOf ts i = lfOf ts i - durOf ts i) ∧
      (∃ t, (computeSchedule ts s).1.get? i = some t ∧
        t.latestStart = some (lsOf ts i) ∧
        t.latestFinish = some (lfOf ts i)) ∧
      (∀ order, ValidTopo (edgesOf ts) ts.length order →
        (bwdPass (edgesOf ts) (durOf ts) (totalOf ts) order).1 i = lsOf ts i ∧
        (bwdPass (edgesOf ts) (durOf ts) (totalOf ts) order).2 i = lfOf ts i) := by
  intro i hi
  have hne : ts ≠ [] := by
    intro h; rw [h] at hi; cases hi
  refine ⟨ls_lf_spec ts hd i hi, ?_, ?_⟩
  · rw [computeSchedule_ok s hne hd]
    refine ⟨writeTask ts s i (ts.get ⟨i, hi⟩), ?_, rfl, rfl⟩
    show (schedTasks ts s).get? i = _
    rw [schedTasks_get?, List.get?_eq_get hi]
    rfl
  · intro order hvo
    exact bwd_order_independent ts hd order hvo i hi

theorem claim_C5_backward_pass_witness :
    isDAG (edgesOf chainTasks) chainTasks.length = true ∧
    (1 : Nat) < chainTasks.length ∧
    ((lfOf chainTasks 1 =
       (if (succsOf (edgesOf chainTasks) 1).isEmpty then totalOf chainTasks
        else listMinR ((succsOf (edgesOf chainTasks) 1).map (lsOf chainTasks))) ∧
      lsOf chainTasks 1 = lfOf chainTasks 1 - durOf chainTasks 1) ∧
     (∃ t, (computeSchedule chainTasks 0).1.get? 1 = some t ∧
       t.latestStart = some (lsOf chainTasks 1) ∧
       t.latestFinish = some (lfOf chainTasks 1)) ∧
     (∀ order, ValidTopo (edgesOf chainTasks) chainTasks.length order →
       (bwdPass (edgesOf chainTasks) (durOf chainTasks) (totalOf chainTasks) order).1 1 =
         lsOf chainTasks 1 ∧
       (bwdPass (edgesOf chainTasks) (durOf chainTasks) (totalOf chainTasks) order).2 1 =
         lfOf chainTasks 1)) :=
  ⟨by decide, by decide, claim_C5_backward_pass chainTasks 0 (by decide) 1 (by decide)⟩

/-- Claim C6: `slack = LS - ES`, which equals `LF - EF`, is written into
every output task, and the critical flag is `1` exactly when
`|slack| < 0.01`, else `0`. -/
theorem claim_C6_slack_flag (ts : List Task) (s : Rat)
    (hd : isDAG (edgesOf ts) ts.length = true) :
    ∀ i, i < ts.length →
      ∃ t, (computeSchedule ts s).1.get? i = some t ∧
        t.slack = some (lsOf ts i - esOf ts i) ∧
        lsOf ts i - esOf ts i = lfOf ts i - efOf ts i ∧
        t.isOnCriticalPath =
          some (if |lsOf ts i - esOf ts i| < 1 / 100 then 1 else 0) := by
  intro i hi
  have hne : ts ≠ [] := by
    intro h; rw [h] at hi; cases hi
  rcases es_ef_spec ts hd i hi with ⟨_, hef⟩
  rcases ls_lf_spec ts hd i hi with ⟨_, hls⟩
  have hflag : (i ∈ criticalNodes ts) ↔ |lsOf ts i - esOf ts i| < 1 / 100 := by
    unfold criticalNodes
    rw [List.mem_filter]
    constructor
    · intro hmem
      have := of_decide_eq_true hmem.2
      simpa [slackOf] using this
    · intro habs
      exact ⟨List.mem_range.mpr hi, decide_eq_true (by simpa [slackOf] using habs)⟩
  rw [computeSchedule_ok s hne hd]
  refine ⟨writeTask ts s i (ts.get ⟨i, hi⟩), ?_, rfl,
    by rw [hef, hls]; ring, ?_⟩
  · show (schedTasks ts s).get? i = _
    rw [schedTasks_get?, List.get?_eq_get hi]
    rfl
  · show some (if i ∈ criticalNodes ts then 1 else 0) = _
    rw [if_congr hflag rfl rfl]

theorem claim_C6_slack_flag_witness :
    isDAG (edgesOf chainTasks) chainTasks.length = true ∧
    (0 : Nat) < chainTasks.length ∧
    (∃ t, (computeSchedule chainTasks 0).1.get? 0 = some t ∧
      t.slack = some (lsOf chainTasks 0 - esOf chainTasks 0) ∧
      lsOf chainTasks 0 - esOf chainTasks 0 = lfOf chainTasks 0 - efOf chainTasks 0 ∧
      t.isOnCriticalPath =
        some (if |lsOf chainTasks 0 - esOf chainTasks 0| < 1 / 100 then 1 else 0)) :=
  ⟨by decide, by decide, claim_C6_slack_flag chainTasks 0 (by decide) 0 (by decide)⟩

/-- Claim C10: for acyclic inputs with positive estimates (the data-model
invariant), every task ends with nonnegative slack — `ES ≤ LS`,
equivalently `EF ≤ LF` — and `LF` never exceeds the total duration. -/
theorem claim_C10_nonneg_slack (ts : List Task) (s : Rat)
    (hd : isDAG (edgesOf ts) ts.length = true)
    (hpos : ∀ t ∈ ts, 0 < t.optimistic ∧ 0 < t.mostLikely ∧ 0 < t.pessimistic) :
    ∀ i, i < ts.length →
      (esOf ts i ≤ lsOf ts i ∧ efOf ts i ≤ lfOf ts i ∧ lfOf ts i ≤ totalOf ts) ∧
      ∃ t, (computeSchedule ts s).1.get? i = some t ∧
        ∃ x, t.slack = some x ∧ 0 ≤ x := by
  intro i hi
  have hne : ts ≠ [] := by
    intro h; rw [h] at hi; cases hi
  rcases schedule_bounds ts hd hpos i hi with ⟨h1, h3⟩
  rcases es_ef_spec ts hd i hi with ⟨_, hef⟩
  rcases ls_lf_spec ts hd i hi with ⟨_, hls⟩
  have h2 : efOf ts i ≤ lfOf ts i := by
    rw [hef]
    rw [hls] at h1
    linarith
  refine ⟨⟨h1, h2, h3⟩, ?_⟩
  rw [computeSchedule_ok s hne hd]
  refine ⟨writeTask ts s i (ts.get ⟨i, hi⟩), ?_, slackOf ts i, rfl, ?_⟩
  · show (schedTasks ts s).get? i = _
    rw [schedTasks_get?, List.get?_eq_get hi]
    rfl
  · show 0 ≤ lsOf ts i - esOf ts i
    linarith

theorem claim_C10_nonneg_slack_witness :
    isDAG (edgesOf chainTasks) chainTasks.length = true ∧
    (∀ t ∈ chainTasks,
      0 < t.optimistic ∧ 0 < t.mostLikely ∧ 0 < t.pessimistic) ∧
    ((esOf chainTasks 0 ≤ lsOf chainTasks 0 ∧
      efOf chainTasks 0 ≤ lfOf chainTasks 0 ∧
      lfOf chainTasks 0 ≤ totalOf chainTasks) ∧
     ∃ t, (computeSchedule chainTasks 0).1.get? 0 = some t ∧
       ∃ x, t.slack = some x ∧ 0 ≤ x) :=
  ⟨by decide, by decide,
   claim_C10_nonneg_slack chainTasks 0 (by decide) (by decide) 0 (by decide)⟩

/-- Claim C8: with a deadline and a nonempty task list,
`generate_insights` reports `buffer_days = round(days_available -
total_duration, 2)` computed from the earliest task start date (or now),
and classifies `"On track"` iff the buffer is at least 5 days,
`"At risk"` iff it is in `[0, 5)`, and `"Behind"` iff it is negative. -/
theorem claim_C8_deadline_status (now : Rat) (plan : Plan) (dl : Rat)
    (hdl : plan.deadline = some dl) (hne : plan.tasks ≠ []) :
    ∃ buffer,
      buffer = round2 ((dl -
          (if (plan.tasks.filterMap Task.startDate).isEmpty then now
           else listMinR (plan.tasks.filterMap Task.startDate))) -
        plan.totalDuration.getD 0) ∧
      (generateInsightsDeadline now plan).1 = some buffer ∧
      ((generateInsightsDeadline now plan).2 = "On track" ↔ 5 ≤ buffer) ∧
      ((generateInsightsDeadline now plan).2 = "At risk" ↔
        0 ≤ buffer ∧ buffer < 5) ∧
      ((generateInsightsDeadline now plan).2 = "Behind" ↔ buffer < 0) := by
  have hlen : ¬ plan.tasks.length = 0 := fun h => hne (List.length_eq_zero.mp h)
  unfold generateInsightsDeadline
  rw [if_neg hlen, hdl]
  dsimp only
  refine ⟨round2 ((dl -
      (if (plan.tasks.filterMap Task.startDate).isEmpty then now
       else listMinR (plan.tasks.filterMap Task.startDate))) -
    plan.totalDuration.getD 0), rfl, ?_⟩
  set b := round2 ((dl -
      (if (plan.tasks.filterMap Task.startDate).isEmpty then now
       else listMinR (plan.tasks.filterMap Task.startDate))) -
    plan.totalDuration.getD 0) with hb
  by_cases h5 : b ≥ 5
  · rw [if_pos h5]
    refine ⟨rfl, iff_of_true rfl h5, ?_, ?_⟩
    · show ("On track" : String) = "At risk" ↔ 0 ≤ b ∧ b < 5
      exact iff_of_false (by decide) (fun h => absurd h.2 (not_lt.mpr h5))
    · show ("On track" : String) = "Behind" ↔ b < 0
      exact iff_of_false (by decide)
        (not_lt.mpr (le_trans (by norm_num) h5))
  · rw [if_neg h5]
    by_cases h0 : b ≥ 0
    · rw [if_pos h0]
      refine ⟨rfl, ?_, iff_of_true rfl ⟨h0, lt_of_not_ge h5⟩, ?_⟩
      · show ("At risk" : String) = "On track" ↔ 5 ≤ b
        exact iff_of_false (by decide) h5
      · show ("At risk" : String) = "Behind" ↔ b < 0
        exact iff_of_false (by decide) (not_lt.mpr h0)
    · rw [if_neg h0]
      refine ⟨rfl, ?_, ?_, iff_of_true rfl (lt_of_not_ge h0)⟩
      · show ("Behind" : String) = "On track" ↔ 5 ≤ b
        exact iff_of_false (by decide) h5
      · show ("Behind" : String) = "At risk" ↔ 0 ≤ b ∧ b < 5
        exact iff_of_false (by decide)
          (fun h => absurd h.1 h0)

/-- A one-task plan with a deadline, for the C8 witness. -/
def demoPlan : Plan :=
  { tasks := [mkTask 1 1 1 []], deadline := some 10, totalDuration := some 3 }

theorem claim_C8_deadline_status_witness :
    demoPlan.deadline = some 10 ∧ demoPlan.tasks ≠ [] ∧
    ∃ buffer,
      buffer = round2 ((10 -
          (if (demoPlan.tasks.filterMap Task.startDate).isEmpty then 0
           else listMinR (demoPlan.tasks.filterMap Task.startDate))) -
        demoPlan.totalDuration.getD 0) ∧
      (generateInsightsDeadline 0 demoPlan).1 = some buffer ∧
      ((generateInsightsDeadline 0 demoPlan).2 = "On track" ↔ 5 ≤ buffer) ∧
      ((generateInsightsDeadline 0 demoPlan).2 = "At risk" ↔
        0 ≤ buffer ∧ buffer < 5) ∧
      ((generateInsightsDeadline 0 demoPlan).2 = "Behind" ↔ buffer < 0) :=
  ⟨rfl, List.cons_ne_nil _ _,
   claim_C8_deadline_status 0 demoPlan 10 rfl (List.cons_ne_nil _ _)⟩

end SmartTaskPlanner
